import Mathlib

/-!
Verification of the range-coder core of the `rust-compress` repository
(`src/entropy/ari/mod.rs`).

Embedding conventions:

* The 32-bit `Border` type (`u32`) is embedded as `Nat` together with explicit
  wrapping operations modulo `2 ^ 32` (`wadd`, `wmul`, `wsub`, `wshl`); every
  value produced by the embedded code stays below `2 ^ 32`.
* `assert!` failures and arithmetic panics (division by zero, the `unwrap` in
  `Decoder::decode`) are modelled by `Option.none`.
* The byte sink (`Writer`, a `MemWriter` in the round-trip scenario) is a
  `List Nat` of written bytes; the byte source (`Reader`) is a `List Nat` of
  available bytes, where reading past the end is an I/O failure.
* The emission closure `fn_shift: |Symbol|` taken by `RangeEncoder::process`
  is a stateful closure in the source; it is embedded as an explicit
  accumulator-passing function `emit : σ → Nat → σ` with a start state.
* The `while` loop of `RangeEncoder::process` is embedded with a fuel
  parameter; exhausting the fuel yields `none`, and all theorems about
  `process` are conditioned on an actual (`some`) result.
* The `cfg(tune)` instrumentation fields of `RangeEncoder`
  (`bits_lost_on_threshold_cut`, `bits_lost_on_division`) are `f32` statistics
  that are compiled out in the default build and never influence the computed
  ranges or bytes; they are omitted from the embedding.  The `debug!` tracing
  calls are likewise omitted.
-/

namespace Ari

/-- `static SYMBOL_BITS: uint = 8`. -/
def SYMBOL_BITS : Nat := 8

/-- `static SYMBOL_TOTAL: uint = 1 << SYMBOL_BITS` (= 256). -/
def SYMBOL_TOTAL : Nat := 256

/-- `static BORDER_BITS: uint = 32`: the width of the `Border` (`u32`) type. -/
def BORDER_BITS : Nat := 32

/-- `static BORDER_EXCESS: uint = BORDER_BITS - SYMBOL_BITS` (= 24). -/
def BORDER_EXCESS : Nat := 24

/-- `static BORDER_SYMBOL_MASK: u32 = (SYMBOL_TOTAL-1) << BORDER_EXCESS`
(= `0xFF000000` = 4278190080). -/
def BORDER_SYMBOL_MASK : Nat := 4278190080

/-- The wrap-around modulus of the 32-bit `Border` type: `2 ^ 32`. -/
def BORDER_MOD : Nat := 4294967296

/-- Wrapping `u32` addition. -/
def wadd (a b : Nat) : Nat := (a + b) % BORDER_MOD

/-- Wrapping `u32` multiplication. -/
def wmul (a b : Nat) : Nat := (a * b) % BORDER_MOD

/-- Wrapping `u32` subtraction (inputs are `u32` values, hence `< 2 ^ 32`). -/
def wsub (a b : Nat) : Nat := (a + BORDER_MOD - b) % BORDER_MOD

/-- Wrapping `u32` left shift. -/
def wshl (a n : Nat) : Nat := (a <<< n) % BORDER_MOD

/-- `pub static RANGE_DEFAULT_THRESHOLD: Border = 1<<14`. -/
def RANGE_DEFAULT_THRESHOLD : Nat := 16384

/-- `pub struct RangeEncoder { low: Border, hai: Border, pub threshold: Border }`
(the `cfg(tune)` statistics fields are omitted, see the module comment). -/
structure RangeEncoder where
  low : Nat
  hai : Nat
  threshold : Nat
deriving DecidableEq, Repr

/-- `RangeEncoder::new(max_range)`: asserts `max_range > SYMBOL_TOTAL`, then
starts with the full interval `low = 0`, `hai = -1 as u32 = 2^32 - 1`. -/
def RangeEncoder.new (max_range : Nat) : Option RangeEncoder :=
  if SYMBOL_TOTAL < max_range then
    some { low := 0, hai := BORDER_MOD - 1, threshold := max_range }
  else none

/-- `RangeEncoder::reset()`. -/
def RangeEncoder.reset (re : RangeEncoder) : RangeEncoder :=
  { re with low := 0, hai := BORDER_MOD - 1 }

/-- The carry-less clip step inside the renormalization loop of
`RangeEncoder::process` (source lines 124-128):

```text
let lim = hi & BORDER_SYMBOL_MASK;
if hi-lim >= lim-lo {lo=lim}
else {hi=lim-1};
assert!(lo < hi);
```

The failed assertion is `none`. -/
def clipStep (lo hi : Nat) : Option (Nat × Nat) :=
  let lim := hi &&& BORDER_SYMBOL_MASK
  let r := if wsub lim lo ≤ wsub hi lim then (lim, hi) else (lo, wsub lim 1)
  if r.1 < r.2 then some r else none

/-- The body of the `if (lo^hi) & BORDER_SYMBOL_MASK != 0` test of the loop,
minus the `break` case: clip when the top bytes differ, otherwise keep the
bounds. -/
def clipPhase (lo hi : Nat) : Option (Nat × Nat) :=
  if ((lo ^^^ hi) &&& BORDER_SYMBOL_MASK) ≠ 0 then clipStep lo hi
  else some (lo, hi)

/-- The `loop { ... }` of `RangeEncoder::process` (source lines 119-136),
with fuel.  One iteration:

* if the top bytes of `lo` and `hi` differ and `hi-lo > threshold`: `break`
  (return the current bounds and accumulator);
* otherwise clip when the top bytes differ (`clipStep`, with its
  `assert!(lo < hi)`), emit the top byte `(lo>>BORDER_EXCESS) as Symbol`,
  shift both bounds (`lo<<=SYMBOL_BITS; hi<<=SYMBOL_BITS`, wrapping), check
  `assert!(lo < hi)` and loop. -/
def processLoop {σ : Type} (emit : σ → Nat → σ) (threshold : Nat) :
    Nat → Nat → Nat → σ → Option (Nat × Nat × σ)
  | 0, _, _, _ => none
  | fuel + 1, lo, hi, acc =>
    if ((lo ^^^ hi) &&& BORDER_SYMBOL_MASK) ≠ 0 ∧ threshold < wsub hi lo then
      some (lo, hi, acc)
    else
      match clipPhase lo hi with
      | none => none
      | some (lo1, hi1) =>
        let acc1 := emit acc ((lo1 >>> BORDER_EXCESS) % SYMBOL_TOTAL)
        let lo2 := wshl lo1 SYMBOL_BITS
        let hi2 := wshl hi1 SYMBOL_BITS
        if lo2 < hi2 then processLoop emit threshold fuel lo2 hi2 acc1
        else none

/-- Fuel for `processLoop`.  Each successful iteration at least doubles the
interval width and the width is bounded by `2 ^ 32`, so 64 iterations are
never exhausted on a successful run. -/
def PROCESS_FUEL : Nat := 64

/-- `RangeEncoder::process(total, from, to, fn_shift)` (source lines 110-139):

```text
let range = (self.hai - self.low) / total;       // division by zero panics
assert!(range > 0);
assert!(from < to);
let mut lo = self.low + range*from;
let mut hi = self.low + range*to;
loop { ... }
self.low = lo;
self.hai = hi;
```
-/
def RangeEncoder.process {σ : Type} (re : RangeEncoder) (total lowOff highOff : Nat)
    (emit : σ → Nat → σ) (acc : σ) : Option (RangeEncoder × σ) :=
  if total = 0 then none
  else
    let range := wsub re.hai re.low / total
    if range = 0 then none
    else if lowOff < highOff then
      let lo := wadd re.low (wmul range lowOff)
      let hi := wadd re.low (wmul range highOff)
      match processLoop emit re.threshold PROCESS_FUEL lo hi acc with
      | none => none
      | some (lo2, hi2, acc2) => some ({ re with low := lo2, hai := hi2 }, acc2)
    else none

/-- `RangeEncoder::query(total, code)` (source lines 142-148):

```text
assert!(self.low <= code && code < self.hai);
let range = (self.hai - self.low) / total;
(code - self.low) / range
```

The divisions panic when `total = 0` or `range = 0`. -/
def RangeEncoder.query (re : RangeEncoder) (total code : Nat) : Option Nat :=
  if re.low ≤ code ∧ code < re.hai then
    if total = 0 then none
    else
      let range := wsub re.hai re.low / total
      if range = 0 then none
      else some (wsub code re.low / range)
  else none

/-- `RangeEncoder::get_code_tail()` (source lines 152-157): returns `low` and
degenerates the interval to `low = hai = 0`. -/
def RangeEncoder.get_code_tail (re : RangeEncoder) : Nat × RangeEncoder :=
  (re.low, { re with low := 0, hai := 0 })

/-- The byte-list emission closure used by `encode`: `|s| accum.push(s)`. -/
def pushEmit (l : List Nat) (s : Nat) : List Nat := l ++ [s]

/-- The byte-counting closure used by `decode`: `|_| shift_bytes += 1`. -/
def countEmit (n : Nat) (_s : Nat) : Nat := n + 1

/-- The `Model<V>` trait: forward partition lookup, inverse lookup, and the
denominator (sum of all probabilities). -/
structure Model (V : Type) where
  get_range : V → Nat × Nat
  find_value : Nat → V × Nat × Nat
  get_denominator : Nat

/-- The partition contract a model must satisfy (spec section 4.2): the
denominator is positive, each value's partition is a non-empty sub-interval of
`[0, total)`, and `find_value` inverts `get_range` on every offset inside the
partition. -/
def PartitionContract {V : Type} (m : Model V) : Prop :=
  0 < m.get_denominator ∧
    ∀ v lowOff highOff, m.get_range v = (lowOff, highOff) →
      lowOff < highOff ∧ highOff ≤ m.get_denominator ∧
        ∀ o, lowOff ≤ o → o < highOff → m.find_value o = (v, lowOff, highOff)

/-- `pub fn encode<V, M>(value, model, re, accum)` (source lines 178-183). -/
def encode {V : Type} (value : V) (m : Model V) (re : RangeEncoder)
    (accum : List Nat) : Option (RangeEncoder × List Nat) :=
  let (lo, hi) := m.get_range value
  let total := m.get_denominator
  re.process total lo hi pushEmit accum

/-- `pub fn decode<V, M>(code, model, re)` (source lines 187-195): returns the
`(value, num_symbols_to_shift)` pair together with the updated range state. -/
def decode {V : Type} (code : Nat) (m : Model V) (re : RangeEncoder) :
    Option (V × Nat × RangeEncoder) :=
  let total := m.get_denominator
  match re.query total code with
  | none => none
  | some offset =>
    let (value, lo, hi) := m.find_value offset
    match re.process total lo hi countEmit 0 with
    | none => none
    | some (re2, shift_bytes) => some (value, shift_bytes, re2)

/-- `pub struct Encoder<W>`: the sink `W` is a list of written bytes.  The
reusable 4-byte buffer is cleared on every `encode` call and immediately
written out, so it carries no observable state and is not a field here. -/
structure Encoder where
  stream : List Nat
  range : RangeEncoder
deriving DecidableEq, Repr

/-- `Encoder::new(w)` over an empty `MemWriter`:
`range = RangeEncoder::new(RANGE_DEFAULT_THRESHOLD)` (the assert passes since
`16384 > 256`, see `RangeEncoder_new_default`). -/
def Encoder.new : Encoder :=
  { stream := [],
    range := { low := 0, hai := BORDER_MOD - 1, threshold := RANGE_DEFAULT_THRESHOLD } }

/-- `Encoder::encode(value, model)`: clear the buffer, run the free `encode`
into it, write the buffer to the sink (a `MemWriter` write never fails). -/
def Encoder.encode {V : Type} (e : Encoder) (value : V) (m : Model V) :
    Option Encoder :=
  match Ari.encode value m e.range [] with
  | none => none
  | some (re2, buf) => some { stream := e.stream ++ buf, range := re2 }

/-- Big-endian 4-byte encoding of a `u32`, as written by `write_be_u32`. -/
def be32 (x : Nat) : List Nat :=
  [x / 16777216 % 256, x / 65536 % 256, x / 256 % 256, x % 256]

/-- `Encoder::finish()`: write the code tail word big-endian and return the
sink contents (flushing a `MemWriter` is a no-op). -/
def Encoder.finish (e : Encoder) : List Nat :=
  let (code, _) := e.range.get_code_tail
  e.stream ++ be32 code

/-- `pub struct Decoder<R>`: the source `R` is the list of not yet consumed
bytes. -/
structure Decoder where
  stream : List Nat
  range : RangeEncoder
  code : Nat
  bytes_pending : Nat
deriving DecidableEq, Repr

/-- `Decoder::new(r)`: fresh range encoder with the default threshold,
`code = 0`, `bytes_pending = BORDER_BITS >> 3 = 4`. -/
def Decoder.new (r : List Nat) : Decoder :=
  { stream := r,
    range := { low := 0, hai := BORDER_MOD - 1, threshold := RANGE_DEFAULT_THRESHOLD },
    code := 0,
    bytes_pending := 4 }

/-- The `while self.bytes_pending != 0` loop of `Decoder::feed`: fold pending
bytes into the code, `self.code = (self.code<<8) + b`.  Reading from an
exhausted source is an I/O failure (`none`). -/
def feedAux : Nat → Nat → List Nat → Option (Nat × List Nat)
  | 0, code, s => some (code, s)
  | _ + 1, _, [] => none
  | p + 1, code, b :: rest => feedAux p (wadd (wshl code SYMBOL_BITS) b) rest

/-- `Decoder::feed()` (source lines 263-270). -/
def Decoder.feed (d : Decoder) : Option Decoder :=
  match feedAux d.bytes_pending d.code d.stream with
  | none => none
  | some (c, s) => some { d with code := c, stream := s, bytes_pending := 0 }

/-- `Decoder::decode(model)` (source lines 273-278):

```text
self.feed().unwrap();
let (value, shift) = decode(self.code, model, &mut self.range);
self.bytes_pending = shift;
Ok(value)
```

The outer `none` is a panic: a failing `feed` is hit by `.unwrap()` (and a
failing assertion inside the free `decode` aborts as well).  The function can
only ever produce `Except.ok`; it never returns the read failure as
`Except.error`. -/
def Decoder.decode {V : Type} (d : Decoder) (m : Model V) :
    Option (Except Unit (V × Decoder)) :=
  match d.feed with
  | none => none
  | some d1 =>
    match Ari.decode d1.code m d1.range with
    | none => none
    | some (value, shift, re2) =>
      some (Except.ok (value, { d1 with range := re2, bytes_pending := shift }))

/-- `Decoder::finish()` (source lines 281-284): one last drain. -/
def Decoder.finish (d : Decoder) : Option Decoder := d.feed

/-- Driver: encode every value of a list through the stream `Encoder`. -/
def encodeVals {V : Type} (m : Model V) : List V → Encoder → Option Encoder
  | [], e => some e
  | v :: vs, e =>
    match e.encode v m with
    | none => none
    | some e1 => encodeVals m vs e1

/-- A full encoding session: fresh `Encoder`, `encode` each value, `finish`. -/
def encodeAll {V : Type} (m : Model V) (vs : List V) : Option (List Nat) :=
  match encodeVals m vs Encoder.new with
  | none => none
  | some e1 => some e1.finish

/-- Driver: call `Decoder::decode` `n` times, collecting the decoded values. -/
def decodeSeq {V : Type} (m : Model V) : Nat → Decoder → Option (List V)
  | 0, _ => some []
  | n + 1, d =>
    match d.decode m with
    | some (Except.ok (v, d1)) =>
      match decodeSeq m n d1 with
      | none => none
      | some vs => some (v :: vs)
    | _ => none

/-- Free-function form of an encoding session on a bare `RangeEncoder`,
accumulating all emitted bytes; used to relate the stream `Encoder` to the
underlying state machine. -/
def encodeList {V : Type} (m : Model V) : List V → RangeEncoder →
    Option (RangeEncoder × List Nat)
  | [], re => some (re, [])
  | v :: vs, re =>
    match encode v m re [] with
    | none => none
    | some (re1, b1) =>
      match encodeList m vs re1 with
      | none => none
      | some (ref, bs) => some (ref, b1 ++ bs)

/-- The 32-bit big-endian window on the first four bytes of a stream. -/
def window32 : List Nat → Nat
  | a :: b :: c :: d :: _ => ((a * 256 + b) * 256 + c) * 256 + d
  | _ => 0

/-- A concrete model over three symbols with `total = 4` and partitions
`0 = [0,1)`, `1 = [1,2)`, `2 = [2,4)` (scenario B of the spec); used as the
concrete input of several witnesses. -/
def modelB : Model (Fin 3) :=
  { get_range := fun v => if v = 0 then (0, 1) else if v = 1 then (1, 2) else (2, 4),
    find_value := fun o =>
      if o < 1 then (0, 0, 1) else if o < 2 then (1, 1, 2) else (2, 2, 4),
    get_denominator := 4 }

/-- The fresh range state used by both stream wrappers satisfies the
constructor's assertion. -/
theorem RangeEncoder_new_default :
    RangeEncoder.new RANGE_DEFAULT_THRESHOLD = some Encoder.new.range := by
  decide

/-! ### Basic facts about the wrapping operations -/

theorem wsub_eq {a b : Nat} (hb : b ≤ a) (ha : a < BORDER_MOD) :
    wsub a b = a - b := by
  simp only [wsub, BORDER_MOD] at *
  omega

theorem wadd_eq {a b : Nat} (h : a + b < BORDER_MOD) : wadd a b = a + b := by
  simp only [wadd]
  exact Nat.mod_eq_of_lt h

theorem wmul_eq {a b : Nat} (h : a * b < BORDER_MOD) : wmul a b = a * b := by
  simp only [wmul]
  exact Nat.mod_eq_of_lt h

theorem wshl8_eq (a : Nat) :
    wshl a SYMBOL_BITS = a % 16777216 * 256 := by
  simp only [wshl, SYMBOL_BITS, BORDER_MOD, Nat.shiftLeft_eq] at *
  have h28 : (2 : Nat) ^ 8 = 256 := by norm_num
  rw [h28]
  omega

theorem wshl_lt (a : Nat) : wshl a SYMBOL_BITS < BORDER_MOD := by
  simp only [wshl, BORDER_MOD]
  omega

/-! ### Bit-level facts about `BORDER_SYMBOL_MASK` -/

theorem land_mask_eq (x : Nat) :
    x &&& BORDER_SYMBOL_MASK = x / 16777216 % 256 * 16777216 := by
  have hmask : BORDER_SYMBOL_MASK = (2 ^ 8 - 1) <<< 24 := by
    simp [BORDER_SYMBOL_MASK, Nat.shiftLeft_eq]
  have hrhs : x / 16777216 % 256 * 16777216 = ((x >>> 24) % 2 ^ 8) <<< 24 := by
    simp [Nat.shiftLeft_eq, Nat.shiftRight_eq_div_pow]
  rw [hmask, hrhs]
  refine Nat.eq_of_testBit_eq fun i => ?_
  rw [Nat.testBit_land, Nat.testBit_shiftLeft, Nat.testBit_shiftLeft,
    Nat.testBit_two_pow_sub_one, Nat.testBit_mod_two_pow, Nat.testBit_shiftRight]
  by_cases h : 24 ≤ i
  · have h24 : 24 + (i - 24) = i := by omega
    rw [h24]
    cases hx : Nat.testBit x i <;> simp [h]
  · simp [h, ge_iff_le]

theorem land_mask_eq_of_lt {x : Nat} (h : x < BORDER_MOD) :
    x &&& BORDER_SYMBOL_MASK = x / 16777216 * 16777216 := by
  rw [land_mask_eq, Nat.mod_eq_of_lt]
  simp only [BORDER_MOD] at h
  omega

theorem lt_two_pow_24_of_testBit {z : Nat}
    (h : ∀ i, 24 ≤ i → z.testBit i = false) : z < 16777216 := by
  have hz : z = z % 2 ^ 24 := by
    refine Nat.eq_of_testBit_eq fun i => ?_
    rw [Nat.testBit_mod_two_pow]
    by_cases hi : i < 24
    · simp [hi]
    · simp [hi, h i (by omega)]
  have : z % 2 ^ 24 < 2 ^ 24 := Nat.mod_lt _ (by norm_num)
  omega

/-- If the masked XOR test of the renormalization loop fires, the top bytes
actually differ. -/
theorem topByte_ne_of_mask {a b : Nat} (ha : a < BORDER_MOD) (hb : b < BORDER_MOD)
    (h : ((a ^^^ b) &&& BORDER_SYMBOL_MASK) ≠ 0) :
    a / 16777216 ≠ b / 16777216 := by
  intro heq
  apply h
  have hz : a ^^^ b < BORDER_MOD := by
    have h32 : BORDER_MOD = 2 ^ 32 := by norm_num [BORDER_MOD]
    rw [h32] at ha hb ⊢
    exact Nat.xor_lt_two_pow ha hb
  rw [land_mask_eq_of_lt hz]
  have hlt : a ^^^ b < 16777216 := by
    apply lt_two_pow_24_of_testBit
    intro i hi
    rw [Nat.testBit_xor]
    have h24 : (16777216 : Nat) = 2 ^ 24 := by norm_num
    have hsr : ∀ y : Nat, y.testBit i = (y >>> 24).testBit (i - 24) := by
      intro y
      rw [Nat.testBit_shiftRight]
      congr 1
      omega
    rw [hsr a, hsr b, Nat.shiftRight_eq_div_pow, Nat.shiftRight_eq_div_pow, ← h24] at *
    simp [heq]
  rw [Nat.div_eq_of_lt hlt]

/-! ### The carry-less clip -/

/-- Behaviour of a successful `clipStep` when the loop actually invokes it:
the clipped interval is a sub-interval of the input interval. -/
theorem clipStep_sub {lo hi lo1 hi1 : Nat} (hlo : lo < hi) (hhi : hi < BORDER_MOD)
    (hdif : ((lo ^^^ hi) &&& BORDER_SYMBOL_MASK) ≠ 0)
    (hc : clipStep lo hi = some (lo1, hi1)) :
    lo ≤ lo1 ∧ lo1 < hi1 ∧ hi1 ≤ hi := by
  have hloM : lo < BORDER_MOD := lt_trans hlo hhi
  have hne := topByte_ne_of_mask hloM hhi hdif
  have hdle : lo / 16777216 < hi / 16777216 :=
    lt_of_le_of_ne (Nat.div_le_div_right (le_of_lt hlo)) hne
  have hlim : hi &&& BORDER_SYMBOL_MASK = hi / 16777216 * 16777216 :=
    land_mask_eq_of_lt hhi
  have hlim_le : hi / 16777216 * 16777216 ≤ hi := Nat.div_mul_le_self hi 16777216
  have hlo_lt_lim : lo < hi / 16777216 * 16777216 := by
    have h1 : lo < (lo / 16777216 + 1) * 16777216 := by omega
    calc lo < (lo / 16777216 + 1) * 16777216 := h1
      _ ≤ hi / 16777216 * 16777216 := by
          have : lo / 16777216 + 1 ≤ hi / 16777216 := hdle
          exact Nat.mul_le_mul_right _ this
  have hlim_pos : 1 ≤ hi / 16777216 * 16777216 := by omega
  have hw1 : wsub (hi &&& BORDER_SYMBOL_MASK) lo = hi / 16777216 * 16777216 - lo := by
    rw [hlim]
    exact wsub_eq (le_of_lt hlo_lt_lim) (lt_of_le_of_lt hlim_le hhi)
  have hw2 : wsub hi (hi &&& BORDER_SYMBOL_MASK) = hi - hi / 16777216 * 16777216 := by
    rw [hlim]
    exact wsub_eq hlim_le hhi
  have hw3 : wsub (hi &&& BORDER_SYMBOL_MASK) 1 = hi / 16777216 * 16777216 - 1 := by
    rw [hlim]
    exact wsub_eq hlim_pos (lt_of_le_of_lt hlim_le hhi)
  simp only [clipStep] at hc
  rw [hw1, hw2, hw3] at hc
  split at hc
  · rename_i hcond
    split at hc
    · rename_i hguard
      injection hc with hc
      injection hc with hc1 hc2
      subst hc1
      subst hc2
      refine ⟨?_, hguard, le_refl _⟩
      rw [hlim]
      exact le_of_lt hlo_lt_lim
    · exact absurd hc (by simp)
  · rename_i hcond
    split at hc
    · rename_i hguard
      injection hc with hc
      injection hc with hc1 hc2
      subst hc1
      subst hc2
      exact ⟨le_refl _, hguard, by omega⟩
    · exact absurd hc (by simp)

/-! ### Parametricity of the emission closure -/

theorem foldl_pushEmit : ∀ (bs init : List Nat), bs.foldl pushEmit init = init ++ bs
  | [], init => by simp
  | b :: bs, init => by
    simp only [List.foldl_cons, foldl_pushEmit bs, pushEmit]
    simp

theorem foldl_countEmit : ∀ (bs : List Nat) (n : Nat),
    bs.foldl countEmit n = n + bs.length
  | [], n => by simp
  | b :: bs, n => by
    simp only [List.foldl_cons, foldl_countEmit bs, countEmit, List.length_cons]
    omega

/-- The renormalization loop is parametric in the emission closure: any run is
the canonical byte-list run with the closure folded over the emitted bytes.
In particular success, the final bounds, and the number of emissions do not
depend on the closure. -/
theorem processLoop_param {σ : Type} (emit : σ → Nat → σ) (thr : Nat) :
    ∀ (fuel lo hi : Nat) (acc : σ),
      processLoop emit thr fuel lo hi acc =
        (processLoop pushEmit thr fuel lo hi []).map
          (fun r => (r.1, r.2.1, r.2.2.foldl emit acc))
  | 0, lo, hi, acc => by simp [processLoop]
  | fuel + 1, lo, hi, acc => by
    simp only [processLoop]
    split
    · simp
    · rcases hcp : clipPhase lo hi with _ | ⟨lo1, hi1⟩
      · simp [hcp]
      · simp only [hcp]
        split
        · rw [processLoop_param emit thr fuel (wshl lo1 SYMBOL_BITS) (wshl hi1 SYMBOL_BITS)
                (emit acc (lo1 >>> BORDER_EXCESS % SYMBOL_TOTAL)),
              processLoop_param pushEmit thr fuel (wshl lo1 SYMBOL_BITS) (wshl hi1 SYMBOL_BITS)
                (pushEmit [] (lo1 >>> BORDER_EXCESS % SYMBOL_TOTAL))]
          rcases hC : processLoop pushEmit thr fuel (wshl lo1 SYMBOL_BITS)
              (wshl hi1 SYMBOL_BITS) [] with _ | ⟨l2, h2, bs⟩
          · simp
          · simp [foldl_pushEmit, pushEmit, List.foldl_cons]
        · simp

/-- `RangeEncoder.process` is parametric in the emission closure. -/
theorem process_param {σ : Type} (emit : σ → Nat → σ) (acc : σ)
    (re : RangeEncoder) (total lowOff highOff : Nat) :
    re.process total lowOff highOff emit acc =
      (re.process total lowOff highOff pushEmit []).map
        (fun r => (r.1, r.2.foldl emit acc)) := by
  simp only [RangeEncoder.process]
  split
  · simp
  · split
    · simp
    · split
      · rw [processLoop_param emit, processLoop_param pushEmit]
        rcases hC : processLoop pushEmit re.threshold PROCESS_FUEL
            (wadd re.low (wmul (wsub re.hai re.low / total) lowOff))
            (wadd re.low (wmul (wsub re.hai re.low / total) highOff)) [] with _ | ⟨l2, h2, bs⟩
        · simp
        · simp [foldl_pushEmit]
      · simp

/-- `clipPhase` never grows the interval and keeps `lo < hi`. -/
theorem clipPhase_sub {lo hi lo1 hi1 : Nat} (hlo : lo < hi) (hhi : hi < BORDER_MOD)
    (hc : clipPhase lo hi = some (lo1, hi1)) :
    lo ≤ lo1 ∧ lo1 < hi1 ∧ hi1 ≤ hi := by
  simp only [clipPhase] at hc
  split at hc
  · exact clipStep_sub hlo hhi (by assumption) hc
  · injection hc with hc
    injection hc with hc1 hc2
    subst hc1
    subst hc2
    exact ⟨le_refl _, hlo, le_refl _⟩

/-! ### Invariants of the renormalization loop -/

/-- A successful loop run preserves `lo < hi` and the 32-bit bound. -/
theorem processLoop_inv {σ : Type} (emit : σ → Nat → σ) (thr : Nat) :
    ∀ (fuel lo hi : Nat) (acc : σ) (lo' hi' : Nat) (acc' : σ),
      lo < hi → hi < BORDER_MOD →
      processLoop emit thr fuel lo hi acc = some (lo', hi', acc') →
      lo' < hi' ∧ hi' < BORDER_MOD
  | 0, _, _, _, _, _, _, _, _, h => by simp [processLoop] at h
  | fuel + 1, lo, hi, acc, lo', hi', acc', hlo, hhi, h => by
    rw [processLoop] at h
    split at h
    · injection h with h
      injection h with h1 h
      injection h with h2 h3
      subst h1
      subst h2
      exact ⟨hlo, hhi⟩
    · rcases hcp : clipPhase lo hi with _ | ⟨lo1, hi1⟩
      · rw [hcp] at h
        simp at h
      · rw [hcp] at h
        simp only [] at h
        split at h
        · exact processLoop_inv emit thr fuel _ _ _ _ _ _ (by assumption) (wshl_lt hi1) h
        · simp at h

/-- All bytes emitted by the canonical loop run are below 256. -/
theorem processLoop_bytes_lt (thr : Nat) :
    ∀ (fuel lo hi : Nat) (acc : List Nat) (lo' hi' : Nat) (out : List Nat),
      processLoop pushEmit thr fuel lo hi acc = some (lo', hi', out) →
      (∀ b ∈ acc, b < 256) → ∀ b ∈ out, b < 256
  | 0, _, _, _, _, _, _, h, _ => by simp [processLoop] at h
  | fuel + 1, lo, hi, acc, lo', hi', out, h, hacc => by
    rw [processLoop] at h
    split at h
    · injection h with h
      injection h with h1 h
      injection h with h2 h3
      subst h3
      exact hacc
    · rcases hcp : clipPhase lo hi with _ | ⟨lo1, hi1⟩
      · rw [hcp] at h
        simp at h
      · rw [hcp] at h
        simp only [] at h
        split at h
        · refine processLoop_bytes_lt thr fuel _ _ _ _ _ _ h ?_
          intro b hb
          simp only [pushEmit, List.mem_append, List.mem_singleton] at hb
          rcases hb with hb | hb
          · exact hacc b hb
          · subst hb
            exact Nat.mod_lt _ (by norm_num [SYMBOL_TOTAL])
        · simp at h

/-- Claim C9's width bound at the loop level: every emitted byte scales the
width bound by 256, and the clip only ever shrinks the interval. -/
theorem processLoop_width (thr : Nat) :
    ∀ (fuel lo hi lo' hi' : Nat) (out : List Nat),
      lo < hi → hi < BORDER_MOD →
      processLoop pushEmit thr fuel lo hi [] = some (lo', hi', out) →
      hi' - lo' ≤ (hi - lo) * 256 ^ out.length
  | 0, _, _, _, _, _, _, _, h => by simp [processLoop] at h
  | fuel + 1, lo, hi, lo', hi', out, hlo, hhi, h => by
    rw [processLoop] at h
    split at h
    · injection h with h
      injection h with h1 h
      injection h with h2 h3
      subst h1
      subst h2
      subst h3
      simp
    · rcases hcp : clipPhase lo hi with _ | ⟨lo1, hi1⟩
      · rw [hcp] at h
        simp at h
      · rw [hcp] at h
        simp only [] at h
        split at h
        · rename_i hguard
          obtain ⟨hsub1, hsub2, hsub3⟩ := clipPhase_sub hlo hhi hcp
          rw [processLoop_param pushEmit thr fuel (wshl lo1 SYMBOL_BITS)
              (wshl hi1 SYMBOL_BITS)
              (pushEmit [] ((lo1 >>> BORDER_EXCESS) % SYMBOL_TOTAL))] at h
          rcases hC : processLoop pushEmit thr fuel (wshl lo1 SYMBOL_BITS)
              (wshl hi1 SYMBOL_BITS) [] with _ | ⟨l2, h2, bs⟩
          · rw [hC] at h
            simp at h
          · rw [hC] at h
            simp only [Option.map_some, foldl_pushEmit, pushEmit] at h
            injection h with h
            injection h with h1 h
            injection h with h2a h3
            subst h1
            subst h2a
            subst h3
            have hW := processLoop_width thr fuel _ _ _ _ bs (by assumption) (wshl_lt hi1) hC
            have hshift_lo : wshl lo1 SYMBOL_BITS = lo1 % 16777216 * 256 := wshl8_eq lo1
            have hshift_hi : wshl hi1 SYMBOL_BITS = hi1 % 16777216 * 256 := wshl8_eq hi1
            rw [hshift_lo, hshift_hi] at hW
            have hmod : hi1 % 16777216 * 256 - lo1 % 16777216 * 256 ≤ (hi1 - lo1) * 256 := by
              omega
            have hclip : hi1 - lo1 ≤ hi - lo := by omega
            calc h2 - l2 ≤ (hi1 % 16777216 * 256 - lo1 % 16777216 * 256) * 256 ^ bs.length := hW
              _ ≤ (hi1 - lo1) * 256 * 256 ^ bs.length :=
                  Nat.mul_le_mul_right _ hmod
              _ ≤ (hi - lo) * 256 * 256 ^ bs.length := by
                  exact Nat.mul_le_mul_right _ (Nat.mul_le_mul_right _ hclip)
              _ = (hi - lo) * 256 ^ (List.length ([] ++ [(lo1 >>> BORDER_EXCESS) % SYMBOL_TOTAL] ++ bs)) := by
                  simp [Nat.pow_succ]
                  ring
        · simp at h

/-! ### Dissection of a successful `process` call -/

/-- Unfolding a successful canonical `process` call: the guards hold, and the
loop ran on the plainly-narrowed (no wrapping occurs) interval. -/
theorem process_some_elim (re re' : RangeEncoder) (total lowOff highOff : Nat)
    (out : List Nat)
    (hlh : re.low ≤ re.hai) (hhiM : re.hai < BORDER_MOD) (ht : highOff ≤ total)
    (hp : re.process total lowOff highOff pushEmit [] = some (re', out)) :
    0 < total ∧ 0 < (re.hai - re.low) / total ∧ lowOff < highOff ∧
      re'.threshold = re.threshold ∧
      re.low + (re.hai - re.low) / total * highOff ≤ re.hai ∧
      processLoop pushEmit re.threshold PROCESS_FUEL
          (re.low + (re.hai - re.low) / total * lowOff)
          (re.low + (re.hai - re.low) / total * highOff) []
        = some (re'.low, re'.hai, out) := by
  have hws : wsub re.hai re.low = re.hai - re.low := wsub_eq hlh hhiM
  simp only [RangeEncoder.process, hws] at hp
  split at hp
  · exact absurd hp (by simp)
  · split at hp
    · exact absurd hp (by simp)
    · split at hp
      · rename_i h0 hr hflt
        have h0' : 0 < total := Nat.pos_of_ne_zero h0
        have hr' : 0 < (re.hai - re.low) / total := Nat.pos_of_ne_zero hr
        have hmulhi_le : (re.hai - re.low) / total * highOff ≤ re.hai - re.low := by
          calc (re.hai - re.low) / total * highOff
              ≤ (re.hai - re.low) / total * total := Nat.mul_le_mul_left _ ht
            _ ≤ re.hai - re.low := Nat.div_mul_le_self _ _
        have hmullo_le : (re.hai - re.low) / total * lowOff ≤ re.hai - re.low :=
          le_trans (Nat.mul_le_mul_left _ (le_of_lt hflt)) hmulhi_le
        have hm1 : wmul ((re.hai - re.low) / total) highOff
            = (re.hai - re.low) / total * highOff :=
          wmul_eq (lt_of_le_of_lt (le_trans hmulhi_le (Nat.sub_le _ _)) hhiM)
        have hm2 : wmul ((re.hai - re.low) / total) lowOff
            = (re.hai - re.low) / total * lowOff :=
          wmul_eq (lt_of_le_of_lt (le_trans hmullo_le (Nat.sub_le _ _)) hhiM)
        have ha1 : wadd re.low ((re.hai - re.low) / total * highOff)
            = re.low + (re.hai - re.low) / total * highOff :=
          wadd_eq (lt_of_le_of_lt (by omega) hhiM)
        have ha2 : wadd re.low ((re.hai - re.low) / total * lowOff)
            = re.low + (re.hai - re.low) / total * lowOff :=
          wadd_eq (lt_of_le_of_lt (by omega) hhiM)
        rw [hm1, hm2, ha1, ha2] at hp
        rcases hL : processLoop pushEmit re.threshold PROCESS_FUEL
            (re.low + (re.hai - re.low) / total * lowOff)
            (re.low + (re.hai - re.low) / total * highOff) [] with _ | ⟨l2, h2, acc2⟩
        · rw [hL] at hp
          exact absurd hp (by simp)
        · rw [hL] at hp
          simp only [Option.some.injEq, Prod.mk.injEq] at hp
          obtain ⟨hp1, hp2⟩ := hp
          subst hp2
          subst hp1
          exact ⟨h0', hr', hflt, rfl, by omega, rfl⟩
      · exact absurd hp (by simp)

/-- Claim C9, counterexample forces (amended): after any successful narrowing
call emitting `k` bytes, the resulting width is at most
`(input width / total) * (high_offset - low_offset) * 256 ^ k` — the claimed
bound lacked the `high_offset - low_offset` factor. -/
theorem process_width_amended (re re' : RangeEncoder) (total lowOff highOff : Nat)
    (out : List Nat)
    (hlh : re.low ≤ re.hai) (hhiM : re.hai < BORDER_MOD) (ht : highOff ≤ total)
    (hp : re.process total lowOff highOff pushEmit [] = some (re', out)) :
    re'.hai - re'.low
      ≤ (re.hai - re.low) / total * (highOff - lowOff) * 256 ^ out.length := by
  obtain ⟨h0, hr, hflt, hthr, hle, hloop⟩ :=
    process_some_elim re re' total lowOff highOff out hlh hhiM ht hp
  have hlt : re.low + (re.hai - re.low) / total * lowOff
      < re.low + (re.hai - re.low) / total * highOff :=
    Nat.add_lt_add_left (Nat.mul_lt_mul_of_pos_left hflt hr) _
  have hW := processLoop_width re.threshold PROCESS_FUEL _ _ _ _ out hlt
    (lt_of_le_of_lt hle hhiM) hloop
  have hsub : re.low + (re.hai - re.low) / total * highOff
        - (re.low + (re.hai - re.low) / total * lowOff)
      = (re.hai - re.low) / total * (highOff - lowOff) := by
    rw [Nat.mul_sub]
    omega
  rw [hsub] at hW
  exact hW

/-- Witness for `process_width_amended`: scenario A emits zero bytes. -/
theorem process_width_amended_witness :
    ((0 : Nat) ≤ 4294967295 ∧ (4294967295 : Nat) < BORDER_MOD ∧ (1 : Nat) ≤ 2 ∧
        RangeEncoder.process { low := 0, hai := 4294967295, threshold := 16384 }
            2 0 1 pushEmit []
          = some ({ low := 0, hai := 2147483647, threshold := 16384 }, [])) ∧
      (2147483647 : Nat) - 0
        ≤ (4294967295 - 0) / 2 * (1 - 0) * 256 ^ List.length ([] : List Nat) :=
  ⟨⟨by decide, by decide, by decide, by decide⟩,
    process_width_amended { low := 0, hai := 4294967295, threshold := 16384 }
      { low := 0, hai := 2147483647, threshold := 16384 } 2 0 1 []
      (by decide) (by decide) (by decide) (by decide)⟩

/-! ### The big-endian window -/

theorem window32_cons (s : Nat) (xs : List Nat) (h4 : 4 ≤ xs.length)
    (hb : ∀ b ∈ xs, b < 256) :
    window32 (s :: xs) = s * 16777216 + window32 xs / 256 := by
  rcases xs with _ | ⟨a, xs⟩
  · simp at h4
  rcases xs with _ | ⟨b, xs⟩
  · simp at h4
  rcases xs with _ | ⟨c, xs⟩
  · simp at h4
  rcases xs with _ | ⟨d, xs⟩
  · simp at h4
  have hd : d < 256 := hb d (by simp)
  simp only [window32]
  omega

theorem window32_lt (xs : List Nat) (hb : ∀ b ∈ xs, b < 256) :
    window32 xs < BORDER_MOD := by
  rcases xs with _ | ⟨a, xs⟩
  · simp [window32, BORDER_MOD]
  rcases xs with _ | ⟨b, xs⟩
  · simp [window32, BORDER_MOD]
  rcases xs with _ | ⟨c, xs⟩
  · simp [window32, BORDER_MOD]
  rcases xs with _ | ⟨d, xs⟩
  · simp [window32, BORDER_MOD]
  have ha : a < 256 := hb a (by simp)
  have hb2 : b < 256 := hb b (by simp)
  have hc : c < 256 := hb c (by simp)
  have hd : d < 256 := hb d (by simp)
  simp only [window32, BORDER_MOD]
  omega

theorem window32_be32 (x : Nat) (h : x < BORDER_MOD) : window32 (be32 x) = x := by
  simp only [BORDER_MOD] at h
  simp only [window32, be32]
  omega

theorem be32_bytes_lt (x : Nat) : ∀ b ∈ be32 x, b < 256 := by
  intro b hb
  simp only [be32, List.mem_cons, List.not_mem_nil, or_false] at hb
  rcases hb with hb | hb | hb | hb <;> subst hb <;> exact Nat.mod_lt _ (by norm_num)

/-- The backward step of the window invariant, matching one emit-and-shift
iteration: if the shifted window lies in the shifted interval, then the
window extended with the emitted byte lies in the unshifted interval. -/
theorem window_shift_back (lo1 hi1 : Nat) (xs : List Nat)
    (hlh : lo1 < hi1) (hhiM : hi1 < BORDER_MOD)
    (h4 : 4 ≤ xs.length) (hb : ∀ b ∈ xs, b < 256)
    (hlo2 : lo1 % 16777216 * 256 ≤ window32 xs)
    (hhi2 : window32 xs < hi1 % 16777216 * 256) :
    lo1 ≤ window32 ((lo1 >>> BORDER_EXCESS) % SYMBOL_TOTAL :: xs) ∧
      window32 ((lo1 >>> BORDER_EXCESS) % SYMBOL_TOTAL :: xs) < hi1 := by
  have hM2 : hi1 < 4294967296 := by simpa [BORDER_MOD] using hhiM
  have hM : lo1 < 4294967296 := by omega
  have hs : (lo1 >>> BORDER_EXCESS) % SYMBOL_TOTAL = lo1 / 16777216 := by
    rw [BORDER_EXCESS, SYMBOL_TOTAL, Nat.shiftRight_eq_div_pow]
    have h24 : (2 : Nat) ^ 24 = 16777216 := by norm_num
    rw [h24]
    exact Nat.mod_eq_of_lt (by omega)
  rw [window32_cons _ xs h4 hb, hs]
  constructor <;> omega

/-- The backward window invariant of the renormalization loop: a code window
that lies in the final interval, prefixed with the emitted bytes, lies in the
initial interval. -/
theorem processLoop_window (thr : Nat) :
    ∀ (fuel lo hi lo' hi' : Nat) (out : List Nat),
      lo < hi → hi < BORDER_MOD →
      processLoop pushEmit thr fuel lo hi [] = some (lo', hi', out) →
      ∀ rest : List Nat, 4 ≤ rest.length → (∀ b ∈ rest, b < 256) →
        lo' ≤ window32 rest → window32 rest < hi' →
        lo ≤ window32 (out ++ rest) ∧ window32 (out ++ rest) < hi
  | 0, _, _, _, _, _, _, _, h => by simp [processLoop] at h
  | fuel + 1, lo, hi, lo', hi', out, hlo, hhi, h => by
    rw [processLoop] at h
    split at h
    · injection h with h
      injection h with h1 h
      injection h with h2 h3
      subst h1
      subst h2
      subst h3
      intro rest h4 hbr hwlo hwhi
      simpa using ⟨hwlo, hwhi⟩
    · rcases hcp : clipPhase lo hi with _ | ⟨lo1, hi1⟩
      · rw [hcp] at h
        simp at h
      · rw [hcp] at h
        simp only [] at h
        split at h
        · rename_i hguard
          obtain ⟨hsub1, hsub2, hsub3⟩ := clipPhase_sub hlo hhi hcp
          rw [processLoop_param pushEmit thr fuel (wshl lo1 SYMBOL_BITS)
              (wshl hi1 SYMBOL_BITS)
              (pushEmit [] ((lo1 >>> BORDER_EXCESS) % SYMBOL_TOTAL))] at h
          rcases hC : processLoop pushEmit thr fuel (wshl lo1 SYMBOL_BITS)
              (wshl hi1 SYMBOL_BITS) [] with _ | ⟨l2, h2, bs⟩
          · rw [hC] at h
            simp at h
          · rw [hC] at h
            simp only [Option.map_some, foldl_pushEmit, pushEmit] at h
            injection h with h
            injection h with h1 h
            injection h with h2a h3
            subst h1
            subst h2a
            subst h3
            intro rest h4 hbr hwlo hwhi
            have hbs : ∀ b ∈ bs, b < 256 :=
              processLoop_bytes_lt thr fuel _ _ [] _ _ _ hC (by simp)
            have hIH := processLoop_window thr fuel _ _ _ _ bs hguard (wshl_lt hi1)
              hC rest h4 hbr hwlo hwhi
            rw [wshl8_eq lo1, wshl8_eq hi1] at hIH
            have hxs4 : 4 ≤ (bs ++ rest).length := by
              rw [List.length_append]
              omega
            have hxsb : ∀ b ∈ bs ++ rest, b < 256 := by
              intro b hbmem
              rcases List.mem_append.mp hbmem with hm | hm
              · exact hbs b hm
              · exact hbr b hm
            have hback := window_shift_back lo1 hi1 (bs ++ rest) hsub2
              (lt_of_le_of_lt hsub3 hhi) hxs4 hxsb hIH.1 hIH.2
            have happ : ([] ++ [(lo1 >>> BORDER_EXCESS) % SYMBOL_TOTAL] ++ bs) ++ rest
                = (lo1 >>> BORDER_EXCESS) % SYMBOL_TOTAL :: (bs ++ rest) := by
              simp
            rw [happ]
            exact ⟨le_trans hsub1 hback.1, lt_of_lt_of_le hback.2 hsub3⟩
        · simp at h

/-- Success/threshold preservation and interval invariant of `process`. -/
theorem process_inv (re re' : RangeEncoder) (total lowOff highOff : Nat)
    (out : List Nat)
    (hlh : re.low ≤ re.hai) (hhiM : re.hai < BORDER_MOD) (ht : highOff ≤ total)
    (hp : re.process total lowOff highOff pushEmit [] = some (re', out)) :
    re'.low < re'.hai ∧ re'.hai < BORDER_MOD ∧ re'.threshold = re.threshold := by
  obtain ⟨h0, hr, hflt, hthr, hle, hloop⟩ :=
    process_some_elim re re' total lowOff highOff out hlh hhiM ht hp
  have hlt : re.low + (re.hai - re.low) / total * lowOff
      < re.low + (re.hai - re.low) / total * highOff :=
    Nat.add_lt_add_left (Nat.mul_lt_mul_of_pos_left hflt hr) _
  obtain ⟨hi1, hi2⟩ := processLoop_inv pushEmit re.threshold PROCESS_FUEL _ _ _ _ _ _
    hlt (lt_of_le_of_lt hle hhiM) hloop
  exact ⟨hi1, hi2, hthr⟩

/-- All bytes a canonical `process` call emits are below 256. -/
theorem process_bytes_lt (re re' : RangeEncoder) (total lowOff highOff : Nat)
    (out : List Nat)
    (hp : re.process total lowOff highOff pushEmit [] = some (re', out)) :
    ∀ b ∈ out, b < 256 := by
  simp only [RangeEncoder.process] at hp
  split at hp
  · exact absurd hp (by simp)
  · split at hp
    · exact absurd hp (by simp)
    · split at hp
      · rcases hL : processLoop pushEmit re.threshold PROCESS_FUEL
            (wadd re.low (wmul (wsub re.hai re.low / total) lowOff))
            (wadd re.low (wmul (wsub re.hai re.low / total) highOff)) []
            with _ | ⟨l2, h2, acc2⟩
        · rw [hL] at hp
          exact absurd hp (by simp)
        · rw [hL] at hp
          simp only [Option.some.injEq, Prod.mk.injEq] at hp
          obtain ⟨-, hp2⟩ := hp
          subst hp2
          exact processLoop_bytes_lt re.threshold PROCESS_FUEL _ _ [] _ _ _ hL
            (by simp)
      · exact absurd hp (by simp)

/-- Lemma B: the backward window invariant at the `process` level.  A window
lying in the updated interval, prefixed with the emitted bytes, lies in the
narrowed (pre-renormalization) sub-interval of the old state. -/
theorem process_window (re re' : RangeEncoder) (total lowOff highOff : Nat)
    (out : List Nat)
    (hlh : re.low < re.hai) (hhiM : re.hai < BORDER_MOD) (ht : highOff ≤ total)
    (hp : re.process total lowOff highOff pushEmit [] = some (re', out)) :
    ∀ rest : List Nat, 4 ≤ rest.length → (∀ b ∈ rest, b < 256) →
      re'.low ≤ window32 rest → window32 rest < re'.hai →
      re.low + (re.hai - re.low) / total * lowOff ≤ window32 (out ++ rest) ∧
        window32 (out ++ rest) < re.low + (re.hai - re.low) / total * highOff := by
  obtain ⟨h0, hr, hflt, hthr, hle, hloop⟩ :=
    process_some_elim re re' total lowOff highOff out (le_of_lt hlh) hhiM ht hp
  intro rest h4 hbr hwlo hwhi
  exact processLoop_window re.threshold PROCESS_FUEL _ _ _ _ out
    (Nat.add_lt_add_left (Nat.mul_lt_mul_of_pos_left hflt hr) _)
    (lt_of_le_of_lt hle hhiM) hloop rest h4 hbr hwlo hwhi

/-! ### The decoder's lazy refill tracks the window -/

/-- One feed iteration slides the 32-bit window one byte forward. -/
theorem window_feed_step (x a b c d : Nat) (tl : List Nat)
    (ha : a < 256) (hb : b < 256) (hc : c < 256) (hd : d < 256) :
    wadd (wshl (window32 (x :: a :: b :: c :: d :: tl)) SYMBOL_BITS) d
      = window32 (a :: b :: c :: d :: tl) := by
  rw [wshl8_eq]
  simp only [window32, wadd, BORDER_MOD]
  omega

/-- Draining `p` pending bytes turns the window at the current position into
the window `p` bytes further on, consuming exactly `p` source bytes. -/
theorem feedAux_window : ∀ (p : Nat) (t : List Nat),
    p + 4 ≤ t.length → (∀ b ∈ t, b < 256) →
    feedAux p (window32 t) (t.drop 4)
      = some (window32 (t.drop p), (t.drop p).drop 4)
  | 0, t, _, _ => by simp [feedAux]
  | p + 1, t, hlen, hbytes => by
    rcases t with _ | ⟨x, xs⟩
    · simp at hlen
    rcases xs with _ | ⟨a, xs⟩
    · simp at hlen
    rcases xs with _ | ⟨b, xs⟩
    · simp at hlen
    rcases xs with _ | ⟨c, xs⟩
    · simp at hlen
    rcases xs with _ | ⟨d, xs⟩
    · simp at hlen
    have ha : a < 256 := hbytes a (by simp)
    have hb : b < 256 := hbytes b (by simp)
    have hc : c < 256 := hbytes c (by simp)
    have hd : d < 256 := hbytes d (by simp)
    have hstep : feedAux (p + 1)
        (window32 (x :: a :: b :: c :: d :: xs))
        ((x :: a :: b :: c :: d :: xs).drop 4)
        = feedAux p (window32 (a :: b :: c :: d :: xs))
            ((a :: b :: c :: d :: xs).drop 4) := by
      simp only [List.drop_succ_cons, List.drop_zero]
      rw [feedAux, window_feed_step x a b c d xs ha hb hc hd]
    rw [hstep, feedAux_window p (a :: b :: c :: d :: xs)
      (by simp at hlen ⊢; omega)
      (by intro y hy; exact hbytes y (by simp at hy ⊢; tauto))]
    simp only [List.drop_succ_cons]

/-- `Decoder::feed` on a decoder whose code is the window at the current
position and whose source continues the stream four bytes further on. -/
theorem feed_spec (d : Decoder) (t : List Nat)
    (hcode : d.code = window32 t) (hstream : d.stream = t.drop 4)
    (hlen : d.bytes_pending + 4 ≤ t.length) (hbytes : ∀ b ∈ t, b < 256) :
    d.feed = some { stream := (t.drop d.bytes_pending).drop 4, range := d.range,
                    code := window32 (t.drop d.bytes_pending),
                    bytes_pending := 0 } := by
  simp only [Decoder.feed, hcode, hstream,
    feedAux_window d.bytes_pending t hlen hbytes]

/-! ### Query bounds -/

/-- Success and bounds of `RangeEncoder.query` when the code lies inside the
narrowed sub-interval `[low + range*lowOff, low + range*highOff)` determined
by a partition `[lowOff, highOff)` of `[0, total)`. -/
theorem query_spec (re : RangeEncoder) (total lowOff highOff code : Nat)
    (hhi : re.hai < BORDER_MOD) (h0 : 0 < total) (ht : highOff ≤ total)
    (hlh : re.low ≤ re.hai)
    (hr : 0 < (re.hai - re.low) / total)
    (hcl : re.low + (re.hai - re.low) / total * lowOff ≤ code)
    (hch : code < re.low + (re.hai - re.low) / total * highOff) :
    re.query total code =
        some ((code - re.low) / ((re.hai - re.low) / total)) ∧
      lowOff ≤ (code - re.low) / ((re.hai - re.low) / total) ∧
      (code - re.low) / ((re.hai - re.low) / total) < highOff := by
  have hrt : (re.hai - re.low) / total * highOff ≤ re.hai - re.low := by
    calc (re.hai - re.low) / total * highOff
        ≤ (re.hai - re.low) / total * total :=
          Nat.mul_le_mul_left _ ht
      _ ≤ re.hai - re.low := Nat.div_mul_le_self _ _
  have hD : re.low ≤ code := le_trans (Nat.le_add_right _ _) hcl
  obtain ⟨D, hDeq⟩ : ∃ D, code = re.low + D := ⟨code - re.low, by omega⟩
  subst hDeq
  have hcl2 : (re.hai - re.low) / total * lowOff ≤ D := by omega
  have hch2 : D < (re.hai - re.low) / total * highOff := by omega
  have hcode_hai : re.low + D < re.hai := by omega
  have hwc : wsub (re.low + D) re.low = D := by
    rw [wsub_eq (Nat.le_add_right _ _) (lt_trans hcode_hai hhi)]
    omega
  have hwh : wsub re.hai re.low = re.hai - re.low := wsub_eq hlh hhi
  have hq : re.query total (re.low + D) =
      some (D / ((re.hai - re.low) / total)) := by
    simp only [RangeEncoder.query, hwh, hwc]
    rw [if_pos ⟨Nat.le_add_right _ _, hcode_hai⟩, if_neg (by omega), if_neg (by omega)]
  have hDD : re.low + D - re.low = D := by omega
  refine ⟨by rw [hq, hDD], ?_, ?_⟩
  · rw [hDD]
    exact (Nat.le_div_iff_mul_le hr).mpr (by rw [Nat.mul_comm]; exact hcl2)
  · rw [hDD]
    exact (Nat.div_lt_iff_lt_mul hr).mpr (by rw [Nat.mul_comm] at hch2; exact hch2)

/-! ### Whole-session invariants of `encodeList` -/

/-- `encodeList` preserves the interval invariant and the threshold. -/
theorem encodeList_inv {V : Type} (m : Model V) (hm : PartitionContract m) :
    ∀ (vs : List V) (re ref : RangeEncoder) (out : List Nat),
      re.low < re.hai → re.hai < BORDER_MOD →
      encodeList m vs re = some (ref, out) →
      ref.low < ref.hai ∧ ref.hai < BORDER_MOD ∧ ref.threshold = re.threshold
  | [], re, ref, out, h1, h2, henc => by
    simp only [encodeList, Option.some.injEq, Prod.mk.injEq] at henc
    obtain ⟨henc1, -⟩ := henc
    subst henc1
    exact ⟨h1, h2, rfl⟩
  | v :: vs, re, ref, out, h1, h2, henc => by
    simp only [encodeList] at henc
    rcases hE : encode v m re [] with _ | ⟨re1, b1⟩
    · rw [hE] at henc
      exact absurd henc (by simp)
    · rw [hE] at henc
      simp only [] at henc
      rcases hEL : encodeList m vs re1 with _ | ⟨ref2, bs⟩
      · rw [hEL] at henc
        exact absurd henc (by simp)
      · rw [hEL] at henc
        simp only [Option.some.injEq, Prod.mk.injEq] at henc
        obtain ⟨henc1, -⟩ := henc
        subst henc1
        rcases hgr : m.get_range v with ⟨f, toff⟩
        simp only [encode, hgr] at hE
        obtain ⟨hp1, hp2, hp3⟩ := process_inv re re1 m.get_denominator f toff b1
          (le_of_lt h1) h2 ((hm.2 v f toff hgr).2.1) hE
        obtain ⟨hq1, hq2, hq3⟩ := encodeList_inv m hm vs re1 ref2 bs hp1 hp2 hEL
        exact ⟨hq1, hq2, hq3.trans hp3⟩

/-- All bytes of an `encodeList` output are below 256. -/
theorem encodeList_bytes_lt {V : Type} (m : Model V) :
    ∀ (vs : List V) (re ref : RangeEncoder) (out : List Nat),
      encodeList m vs re = some (ref, out) → ∀ b ∈ out, b < 256
  | [], re, ref, out, henc => by
    simp only [encodeList, Option.some.injEq, Prod.mk.injEq] at henc
    obtain ⟨-, henc2⟩ := henc
    subst henc2
    simp
  | v :: vs, re, ref, out, henc => by
    simp only [encodeList] at henc
    rcases hE : encode v m re [] with _ | ⟨re1, b1⟩
    · rw [hE] at henc
      exact absurd henc (by simp)
    · rw [hE] at henc
      simp only [] at henc
      rcases hEL : encodeList m vs re1 with _ | ⟨ref2, bs⟩
      · rw [hEL] at henc
        exact absurd henc (by simp)
      · rw [hEL] at henc
        simp only [Option.some.injEq, Prod.mk.injEq] at henc
        obtain ⟨-, henc2⟩ := henc
        subst henc2
        intro b hbmem
        rcases List.mem_append.mp hbmem with hmem | hmem
        · rcases hgr : m.get_range v with ⟨f, toff⟩
          simp only [encode, hgr] at hE
          exact process_bytes_lt re re1 m.get_denominator f toff b1 hE b hmem
        · exact encodeList_bytes_lt m vs re1 ref2 bs hEL b hmem

/-- The backward window invariant over a whole encoding session: a window in
the final interval, prefixed with all emitted bytes, lies in the initial
interval. -/
theorem encodeList_window {V : Type} (m : Model V) (hm : PartitionContract m) :
    ∀ (vs : List V) (re ref : RangeEncoder) (out : List Nat),
      re.low < re.hai → re.hai < BORDER_MOD →
      encodeList m vs re = some (ref, out) →
      ∀ rest : List Nat, 4 ≤ rest.length → (∀ b ∈ rest, b < 256) →
        ref.low ≤ window32 rest → window32 rest < ref.hai →
        re.low ≤ window32 (out ++ rest) ∧ window32 (out ++ rest) < re.hai
  | [], re, ref, out, h1, h2, henc => by
    simp only [encodeList, Option.some.injEq, Prod.mk.injEq] at henc
    obtain ⟨henc1, henc2⟩ := henc
    subst henc1
    subst henc2
    intro rest h4 hbr hwlo hwhi
    simpa using ⟨hwlo, hwhi⟩
  | v :: vs, re, ref, out, h1, h2, henc => by
    simp only [encodeList] at henc
    rcases hE : encode v m re [] with _ | ⟨re1, b1⟩
    · rw [hE] at henc
      exact absurd henc (by simp)
    · rw [hE] at henc
      simp only [] at henc
      rcases hEL : encodeList m vs re1 with _ | ⟨ref2, bs⟩
      · rw [hEL] at henc
        exact absurd henc (by simp)
      · rw [hEL] at henc
        simp only [Option.some.injEq, Prod.mk.injEq] at henc
        obtain ⟨henc1, henc2⟩ := henc
        subst henc1
        subst henc2
        intro rest h4 hbr hwlo hwhi
        rcases hgr : m.get_range v with ⟨f, toff⟩
        simp only [encode, hgr] at hE
        have ht : toff ≤ m.get_denominator := (hm.2 v f toff hgr).2.1
        obtain ⟨hp1, hp2, -⟩ := process_inv re re1 m.get_denominator f toff b1
          (le_of_lt h1) h2 ht hE
        have hIH := encodeList_window m hm vs re1 ref2 bs hp1 hp2 hEL rest h4 hbr
          hwlo hwhi
        have hbs : ∀ b ∈ bs ++ rest, b < 256 := by
          intro b hbmem
          rcases List.mem_append.mp hbmem with hmem | hmem
          · exact encodeList_bytes_lt m vs re1 ref2 bs hEL b hmem
          · exact hbr b hmem
        have h4' : 4 ≤ (bs ++ rest).length := by
          rw [List.length_append]
          omega
        have hwin := process_window re re1 m.get_denominator f toff b1 h1 h2 ht hE
          (bs ++ rest) h4' hbs hIH.1 hIH.2
        obtain ⟨-, -, -, -, hle, -⟩ :=
          process_some_elim re re1 m.get_denominator f toff b1 (le_of_lt h1) h2 ht hE
        rw [List.append_assoc]
        constructor
        · exact le_trans (Nat.le_add_right _ _) hwin.1
        · exact lt_of_lt_of_le hwin.2 hle

/-! ### The round-trip induction -/

/-- Core round-trip invariant: if `encodeList` encoded `vs` from state `re`
producing `out`, and the decoder holds the same range state with its window
positioned at the start of `out ++ tail-word`, then `vs.length` decode calls
reproduce `vs` exactly. -/
theorem decode_matches {V : Type} (m : Model V) (hm : PartitionContract m) :
    ∀ (vs : List V) (re ref : RangeEncoder) (out : List Nat) (d : Decoder)
      (t : List Nat),
      re.low < re.hai → re.hai < BORDER_MOD →
      encodeList m vs re = some (ref, out) →
      d.range = re → d.code = window32 t → d.stream = t.drop 4 →
      t.drop d.bytes_pending = out ++ be32 ref.low →
      d.bytes_pending + 4 ≤ t.length →
      (∀ b ∈ t, b < 256) →
      decodeSeq m vs.length d = some vs
  | [], re, ref, out, d, t, h1, h2, henc, hrange, hcode, hstream, hdrop, hlen,
      hbytes => by
    simp [decodeSeq]
  | v :: vs, re, ref, out, d, t, h1, h2, henc, hrange, hcode, hstream, hdrop, hlen,
      hbytes => by
    simp only [encodeList] at henc
    rcases hE : encode v m re [] with _ | ⟨re1, b1⟩
    · rw [hE] at henc
      exact absurd henc (by simp)
    rw [hE] at henc
    simp only [] at henc
    rcases hEL : encodeList m vs re1 with _ | ⟨ref2, bs⟩
    · rw [hEL] at henc
      exact absurd henc (by simp)
    rw [hEL] at henc
    simp only [Option.some.injEq, Prod.mk.injEq] at henc
    obtain ⟨henc1, henc2⟩ := henc
    subst henc1
    subst henc2
    rcases hgr : m.get_range v with ⟨f, toff⟩
    simp only [encode, hgr] at hE
    obtain ⟨hft, htl, hfind⟩ := hm.2 v f toff hgr
    obtain ⟨hp1, hp2, hp3⟩ := process_inv re re1 m.get_denominator f toff b1
      (le_of_lt h1) h2 htl hE
    obtain ⟨hq1, hq2, hq3⟩ := encodeList_inv m hm vs re1 ref2 bs hp1 hp2 hEL
    have hb1lt : ∀ b ∈ b1, b < 256 :=
      process_bytes_lt re re1 m.get_denominator f toff b1 hE
    have hbslt : ∀ b ∈ bs, b < 256 := encodeList_bytes_lt m vs re1 ref2 bs hEL
    have htail_win : window32 (be32 ref2.low) = ref2.low :=
      window32_be32 ref2.low (lt_trans hq1 hq2)
    have hu1b : ∀ b ∈ bs ++ be32 ref2.low, b < 256 := by
      intro b hbmem
      rcases List.mem_append.mp hbmem with hmem | hmem
      · exact hbslt b hmem
      · exact be32_bytes_lt ref2.low b hmem
    have hu1len : 4 ≤ (bs ++ be32 ref2.low).length := by
      simp [be32, List.length_append]
    have hwin1 := encodeList_window m hm vs re1 ref2 bs hp1 hp2 hEL
      (be32 ref2.low) (by simp [be32]) (be32_bytes_lt ref2.low)
      (le_of_eq htail_win.symm) (by rw [htail_win]; exact hq1)
    have hu0b : ∀ b ∈ b1 ++ (bs ++ be32 ref2.low), b < 256 := by
      intro b hbmem
      rcases List.mem_append.mp hbmem with hmem | hmem
      · exact hb1lt b hmem
      · exact hu1b b hmem
    have hwin0 := process_window re re1 m.get_denominator f toff b1 h1 h2 htl hE
      (bs ++ be32 ref2.low) hu1len hu1b hwin1.1 hwin1.2
    obtain ⟨h0, hr, hflt, -, hle, -⟩ :=
      process_some_elim re re1 m.get_denominator f toff b1 (le_of_lt h1) h2 htl hE
    have hdrop2 : t.drop d.bytes_pending = b1 ++ (bs ++ be32 ref2.low) := by
      rw [hdrop, List.append_assoc]
    have hfeed := feed_spec d t hcode hstream hlen hbytes
    rw [hdrop2] at hfeed
    obtain ⟨hq, hof, hot⟩ := query_spec re m.get_denominator f toff
      (window32 (b1 ++ (bs ++ be32 ref2.low))) h2 hm.1 htl (le_of_lt h1) hr
      hwin0.1 hwin0.2
    have hfv := hfind _ hof hot
    have hproc2 : re.process m.get_denominator f toff countEmit 0
        = some (re1, b1.length) := by
      rw [process_param countEmit 0, hE]
      simp [foldl_countEmit]
    have hdec : Ari.decode (window32 (b1 ++ (bs ++ be32 ref2.low))) m re
        = some (v, b1.length, re1) := by
      simp only [decode, hq, hfv, hproc2]
    have hDdec : d.decode m = some (Except.ok (v,
        { stream := (b1 ++ (bs ++ be32 ref2.low)).drop 4, range := re1,
          code := window32 (b1 ++ (bs ++ be32 ref2.low)),
          bytes_pending := b1.length })) := by
      simp only [Decoder.decode, hfeed, hrange, hdec]
    have hIH := decode_matches m hm vs re1 ref2 bs
      { stream := (b1 ++ (bs ++ be32 ref2.low)).drop 4, range := re1,
        code := window32 (b1 ++ (bs ++ be32 ref2.low)),
        bytes_pending := b1.length }
      (b1 ++ (bs ++ be32 ref2.low)) hp1 hp2 hEL rfl rfl rfl
      (by simp [List.drop_left])
      (by show b1.length + 4 ≤ (b1 ++ (bs ++ be32 ref2.low)).length
          rw [List.length_append]
          omega)
      hu0b
    simp only [List.length_cons, decodeSeq, hDdec, hIH]

/-! ### The stream `Encoder` is `encodeList` plus the tail word -/

theorem encodeVals_eq {V : Type} (m : Model V) :
    ∀ (vs : List V) (e : Encoder),
      encodeVals m vs e = (encodeList m vs e.range).map
        (fun r => { stream := e.stream ++ r.2, range := r.1 })
  | [], e => by simp [encodeVals, encodeList]
  | v :: vs, e => by
    simp only [encodeVals, encodeList, Encoder.encode]
    rcases hE : encode v m e.range [] with _ | ⟨re1, b1⟩
    · simp
    · simp only []
      rw [encodeVals_eq m vs { stream := e.stream ++ b1, range := re1 }]
      rcases hEL : encodeList m vs re1 with _ | ⟨ref2, bs⟩
      · simp
      · simp [List.append_assoc]

theorem encodeAll_eq {V : Type} (m : Model V) (vs : List V) :
    encodeAll m vs = (encodeList m vs Encoder.new.range).map
      (fun r => r.2 ++ be32 r.1.low) := by
  simp only [encodeAll, encodeVals_eq m vs Encoder.new]
  rcases hEL : encodeList m vs Encoder.new.range with _ | ⟨ref, bs⟩
  · simp
  · simp [Encoder.finish, Encoder.new, RangeEncoder.get_code_tail]

/-- Claim C1 (confirmed): for every model satisfying the partition contract
and every sequence the encoder can actually encode (a fresh default-threshold
`Encoder`, `encode` for each value, then `finish`), decoding the produced
byte stream with a fresh default-threshold `Decoder`, calling `decode` once
per value, returns exactly the original sequence. -/
theorem roundtrip {V : Type} (m : Model V) (hm : PartitionContract m)
    (vs : List V) (out : List Nat) (henc : encodeAll m vs = some out) :
    decodeSeq m vs.length (Decoder.new out) = some vs := by
  rw [encodeAll_eq] at henc
  rcases hEL : encodeList m vs Encoder.new.range with _ | ⟨ref, bytes⟩
  · rw [hEL] at henc
    exact absurd henc (by simp)
  · rw [hEL] at henc
    simp only [Option.map_some', Option.some.injEq] at henc
    subst henc
    have hob : ∀ b ∈ bytes, b < 256 :=
      encodeList_bytes_lt m vs Encoder.new.range ref bytes hEL
    refine decode_matches m hm vs Encoder.new.range ref bytes
      (Decoder.new (bytes ++ be32 ref.low))
      (0 :: 0 :: 0 :: 0 :: (bytes ++ be32 ref.low))
      (by decide) (by decide) hEL rfl (by simp [Decoder.new, window32]) rfl rfl
      ?_ ?_
    · show 4 + 4 ≤ (0 :: 0 :: 0 :: 0 :: (bytes ++ be32 ref.low)).length
      simp [be32, List.length_append]
    · intro b hbmem
      simp only [List.mem_cons, List.mem_append] at hbmem
      rcases hbmem with rfl | rfl | rfl | rfl | hmem | hmem
      · norm_num
      · norm_num
      · norm_num
      · norm_num
      · exact hob b hmem
      · exact be32_bytes_lt ref.low b hmem

/-- The concrete scenario-B model satisfies the partition contract. -/
theorem modelB_contract : PartitionContract modelB := by
  constructor
  · norm_num [modelB]
  · intro v f t hgr
    fin_cases v
    · have hgr2 : ((0 : Nat), (1 : Nat)) = (f, t) := hgr
      injection hgr2 with hf ht
      subst hf
      subst ht
      refine ⟨by norm_num, by norm_num [modelB], ?_⟩
      intro o h1 h2
      have ho : o = 0 := by omega
      subst ho
      rfl
    · have hgr2 : ((1 : Nat), (2 : Nat)) = (f, t) := hgr
      injection hgr2 with hf ht
      subst hf
      subst ht
      refine ⟨by norm_num, by norm_num [modelB], ?_⟩
      intro o h1 h2
      have ho : o = 1 := by omega
      subst ho
      rfl
    · have hgr2 : ((2 : Nat), (4 : Nat)) = (f, t) := hgr
      injection hgr2 with hf ht
      subst hf
      subst ht
      refine ⟨by norm_num, by norm_num [modelB], ?_⟩
      intro o h1 h2
      show (if o < 1 then ((0 : Fin 3), (0 : Nat), (1 : Nat))
          else if o < 2 then (1, 1, 2) else (2, 2, 4)) = (2, 2, 4)
      rw [if_neg (by omega), if_neg (by omega)]

/-- Witness for `roundtrip`: scenario B, encoding `[A, B, A, C]` as
`[0, 1, 0, 2]` under `modelB` yields the stream `[17, 255, 255, 253]`
(zero renormalization bytes plus the 4-byte tail), which decodes back. -/
theorem roundtrip_witness :
    (PartitionContract modelB ∧
        encodeAll modelB [0, 1, 0, 2] = some [17, 255, 255, 253]) ∧
      decodeSeq modelB (List.length [(0 : Fin 3), 1, 0, 2])
          (Decoder.new [17, 255, 255, 253])
        = some [0, 1, 0, 2] :=
  ⟨⟨modelB_contract, by decide⟩,
    roundtrip modelB modelB_contract [0, 1, 0, 2] [17, 255, 255, 253] (by decide)⟩

/-! ### Claim theorems: the state machine in isolation -/

/-- Claim C2 (confirmed): starting from `low = 0`, `hai = 0xFFFFFFFF`,
`threshold = 16384`, processing the partition `total = 2`, `low_offset = 0`,
`high_offset = 1` emits zero bytes and leaves `low = 0`,
`hai = 0x7FFFFFFF`. -/
theorem scenarioA_process_zero_bytes :
    RangeEncoder.process { low := 0, hai := 4294967295, threshold := 16384 }
        2 0 1 pushEmit []
      = some ({ low := 0, hai := 2147483647, threshold := 16384 }, []) := by
  decide

/-- Claim C4, counterexample: at the tie `hi - lim = lim - lo` (here
`lo = 0x00FFFFF0`, `hi = 0x01000010`, `lim = 0x01000000`, both halves 16 wide)
the clip step raises `low` to `lim = 16777216` and keeps `high`; it does not
set `high` to `lim - 1 = 16777215` as the claim states. -/
theorem clip_tie_counterexample :
    clipStep 16777200 16777232 = some (16777216, 16777232) ∧
      clipStep 16777200 16777232 ≠ some (16777200, 16777215) := by
  decide

/-- Claim C4 (corrected): in the carry-less clip step, when the two halves
are exactly equal (`hi - lim = lim - lo`), the tie resolves toward raising
`low` to `lim` (the `>=` in `if hi-lim >= lim-lo {lo=lim}` wins), leaving
`high` unchanged — not toward lowering `high` to `lim - 1`. -/
theorem clip_tie_raises_low (lo hi : Nat)
    (htie : wsub hi (hi &&& BORDER_SYMBOL_MASK) = wsub (hi &&& BORDER_SYMBOL_MASK) lo)
    (hlt : hi &&& BORDER_SYMBOL_MASK < hi) :
    clipStep lo hi = some (hi &&& BORDER_SYMBOL_MASK, hi) := by
  simp only [clipStep]
  rw [if_pos (le_of_eq htie.symm), if_pos hlt]

/-- Witness for `clip_tie_raises_low` at the concrete tie
`lo = 16777200`, `hi = 16777232`. -/
theorem clip_tie_raises_low_witness :
    (wsub 16777232 (16777232 &&& BORDER_SYMBOL_MASK)
        = wsub (16777232 &&& BORDER_SYMBOL_MASK) 16777200 ∧
      16777232 &&& BORDER_SYMBOL_MASK < 16777232) ∧
      clipStep 16777200 16777232 = some (16777232 &&& BORDER_SYMBOL_MASK, 16777232) :=
  ⟨⟨by decide, by decide⟩, clip_tie_raises_low 16777200 16777232 (by decide) (by decide)⟩

/-- Claim C5, counterexample: at the freshly-initialized state
(`low = 0`, `hai = 0xFFFFFFFF`) with `total = 7` and the in-range code
`0xFFFFFFFE`, `query` returns offset `7 = total`, violating
`offset < total` (the `0 ≤ code - low < high - low` assertions all pass). -/
theorem query_offset_total_counterexample :
    RangeEncoder.query { low := 0, hai := 4294967295, threshold := 16384 }
        7 4294967294 = some 7 ∧ ¬ (7 : Nat) < 7 := by
  decide

/-- Claim C5 (corrected): for every state with `low ≤ code < hai`,
`total > 0` and available range `(hai-low)/total > 0`, *and* `code` lying
below `low + ((hai-low)/total) * total` (the region actually covered by the
partition scaling — without this extra bound the offset can reach `total`,
see the counterexample), `query` succeeds with an offset `< total`, and
`code = low` resolves to offset `0`. -/
theorem query_offset_amended (re : RangeEncoder) (total code : Nat)
    (h1 : re.low ≤ code) (h2 : code < re.hai) (hhi : re.hai < BORDER_MOD)
    (h0 : 0 < total) (hr : 0 < (re.hai - re.low) / total)
    (hb : code < re.low + (re.hai - re.low) / total * total) :
    ∃ offset, re.query total code = some offset ∧ offset < total ∧
      (code = re.low → offset = 0) := by
  obtain ⟨hq, -, hlt⟩ :=
    query_spec re total 0 total code hhi h0 (le_refl total)
      (le_of_lt (lt_of_le_of_lt h1 h2)) hr (by simpa using h1) hb
  refine ⟨_, hq, hlt, ?_⟩
  intro hc
  subst hc
  simp

/-- Witness for `query_offset_amended` at the fresh state with `total = 4`,
`code = low = 0`. -/
theorem query_offset_amended_witness :
    ((0 : Nat) ≤ 0 ∧ (0 : Nat) < 4294967295 ∧ (0 : Nat) < 4 ∧
        0 < (4294967295 - 0) / 4 ∧ (0 : Nat) < 0 + (4294967295 - 0) / 4 * 4) ∧
      ∃ offset,
        RangeEncoder.query { low := 0, hai := 4294967295, threshold := 16384 } 4 0
            = some offset ∧ offset < 4 ∧ ((0 : Nat) = 0 → offset = 0) :=
  ⟨⟨by decide, by decide, by decide, by decide, by decide⟩,
    query_offset_amended { low := 0, hai := 4294967295, threshold := 16384 } 4 0
      (by decide) (by decide) (by decide) (by decide) (by decide) (by decide)⟩

/-- Claim C6 (confirmed): whenever the available range
`(hai - low) / total` computed by `process` is zero, the narrowing operation
is a fatal fault: the `assert!(range > 0)` fires (embedded as `none`) and no
state update or byte emission happens. -/
theorem process_zero_range_faults (re : RangeEncoder) (total lowOff highOff : Nat)
    (acc : List Nat) (h : wsub re.hai re.low / total = 0) :
    re.process total lowOff highOff pushEmit acc = none := by
  simp only [RangeEncoder.process]
  split
  · rfl
  · simp [h]

/-- Witness for `process_zero_range_faults`: interval `[0, 100)` with
`total = 200`. -/
theorem process_zero_range_faults_witness :
    wsub 100 0 / 200 = 0 ∧
      RangeEncoder.process { low := 0, hai := 100, threshold := 16384 }
          200 0 1 pushEmit [] = none :=
  ⟨by decide,
    process_zero_range_faults { low := 0, hai := 100, threshold := 16384 }
      200 0 1 [] (by decide)⟩

/-- Claim C7 (confirmed): an encoder on which `encode` was never called
emits, upon `finish()`, exactly the 4-byte big-endian encoding of the initial
`low = 0` (bytes `00 00 00 00`) and nothing before it; `get_code_tail` on the
fresh state returns `0` and degenerates the interval to `low = hai = 0`. -/
theorem empty_session_tail :
    Encoder.new.finish = [0, 0, 0, 0] ∧
      Encoder.new.range.get_code_tail
        = (0, { low := 0, hai := 0, threshold := 16384 }) := by
  decide

/-- Claim C8 (confirmed): for every state and partition, the decode driver's
narrowing call (`process` with the counting closure starting at `0`, as in
`decode`) succeeds exactly when the encode driver's call (`process` with the
byte-pushing closure, as in `encode`) does, produces the identical updated
interval state, and returns as its count precisely the number of bytes the
encode driver appends. -/
theorem decode_count_matches_encode (re : RangeEncoder) (total lowOff highOff : Nat) :
    re.process total lowOff highOff countEmit 0 =
      (re.process total lowOff highOff pushEmit []).map
        (fun r => (r.1, r.2.length)) := by
  rw [process_param countEmit 0]
  rcases h : re.process total lowOff highOff pushEmit [] with _ | ⟨re1, bs⟩
  · simp
  · simp [foldl_countEmit]

/-- Claim C9, counterexample: processing `total = 2`, `low_offset = 0`,
`high_offset = 2` at the fresh state emits zero bytes and leaves width
`0xFFFFFFFE`, which exceeds `(width / total) * 256 ^ 0 = 0x7FFFFFFF`: the
claimed bound forgets the `high_offset - low_offset` factor. -/
theorem process_width_counterexample :
    RangeEncoder.process { low := 0, hai := 4294967295, threshold := 16384 }
        2 0 2 pushEmit []
      = some ({ low := 0, hai := 4294967294, threshold := 16384 }, []) ∧
      ¬ 4294967294 - 0 ≤ (4294967295 - 0) / 2 * 256 ^ (0 : Nat) := by
  decide

/-- Claim C10 (confirmed): `RangeEncoder::new` asserts
`max_range > SYMBOL_TOTAL`; any `max_range ≤ 256` is a fatal assertion
fault. -/
theorem new_max_range_assertion (max_range : Nat) (h : max_range ≤ SYMBOL_TOTAL) :
    RangeEncoder.new max_range = none := by
  simp only [RangeEncoder.new, SYMBOL_TOTAL] at *
  rw [if_neg (by omega)]

/-- Witness for `new_max_range_assertion` at the boundary value `256`. -/
theorem new_max_range_assertion_witness :
    256 ≤ SYMBOL_TOTAL ∧ RangeEncoder.new 256 = none :=
  ⟨by decide, new_max_range_assertion 256 (by decide)⟩

/-- Claim C3 (code bug): when the pending-byte refill fails,
`Decoder::decode` does not return the failure as an error result — the
source calls `self.feed().unwrap()`, which panics (`none` in the embedding),
and the `IoResult` it returns can only ever be `Ok`. -/
theorem decode_read_failure_panics {V : Type} (m : Model V) (d : Decoder)
    (h : d.feed = none) :
    d.decode m = none ∧ ∀ e : Unit, d.decode m ≠ some (Except.error e) := by
  refine ⟨?_, ?_⟩
  · simp [Decoder.decode, h]
  · intro e
    simp [Decoder.decode, h]

/-- Witness for `decode_read_failure_panics`: a fresh decoder over an
exhausted source, whose very first (priming) read fails. -/
theorem decode_read_failure_panics_witness :
    Decoder.feed (Decoder.new []) = none ∧
      Decoder.decode (Decoder.new []) modelB = none :=
  ⟨by rfl, (decode_read_failure_panics modelB (Decoder.new []) (by rfl)).1⟩

end Ari
